import Mathlib

/-!
Verification development for the `strchunk` crate: UTF-8 validated views
over byte buffers.

Shallow embedding conventions:
- a byte is a `Nat` in the range 0..255; a byte buffer (`Bytes`, `BytesMut`
  content) is a `List Nat`;
- `StrChunk` wraps the byte list of its content; `StrChunkMut` additionally
  carries its capacity, which the append operations consult;
- Rust panics are modelled as `none` / `Except.error` results;
- `str::from_utf8` is embedded as `utf8Validate`, following the validation
  algorithm of Rust core (`run_utf8_validation`): the result is `none` when
  the whole input is valid UTF-8, and `some (valid_up_to, error_len)`
  otherwise, where `error_len = none` denotes an incomplete trailing
  sequence and `error_len = some k` an invalid sequence of `k` bytes.
  The recursion returns positions relative to the suffix being examined
  and shifts them as it returns, which yields the same absolute
  `valid_up_to` as the source's running offset.
-/

namespace Strchunk

/-- Continuation byte class 0x80..=0xBF. -/
def isCont (b : Nat) : Bool :=
  decide (0x80 ≤ b) && decide (b < 0xC0)

/-- Width table of Rust core (`utf8_char_width`): expected length of the
UTF-8 sequence led by byte `b`; 0 for bytes that can never lead one. -/
def utf8CharWidth (b : Nat) : Nat :=
  if b < 0x80 then 1
  else if b < 0xC2 then 0
  else if b < 0xE0 then 2
  else if b < 0xF0 then 3
  else if b < 0xF5 then 4
  else 0

/-- Valid second bytes of a 3-byte sequence, per the match arms of
Rust core validation: `(0xE0, 0xA0..=0xBF) | (0xE1..=0xEC, 0x80..=0xBF)
| (0xED, 0x80..=0x9F) | (0xEE..=0xEF, 0x80..=0xBF)`. -/
def valid3Second (b0 b1 : Nat) : Bool :=
  (decide (b0 = 0xE0) && decide (0xA0 ≤ b1) && decide (b1 ≤ 0xBF)) ||
  (decide (0xE1 ≤ b0) && decide (b0 ≤ 0xEC) && isCont b1) ||
  (decide (b0 = 0xED) && decide (0x80 ≤ b1) && decide (b1 ≤ 0x9F)) ||
  (decide (0xEE ≤ b0) && decide (b0 ≤ 0xEF) && isCont b1)

/-- Valid second bytes of a 4-byte sequence, per the match arms of
Rust core validation: `(0xF0, 0x90..=0xBF) | (0xF1..=0xF3, 0x80..=0xBF)
| (0xF4, 0x80..=0x8F)`. -/
def valid4Second (b0 b1 : Nat) : Bool :=
  (decide (b0 = 0xF0) && decide (0x90 ≤ b1) && decide (b1 ≤ 0xBF)) ||
  (decide (0xF1 ≤ b0) && decide (b0 ≤ 0xF3) && isCont b1) ||
  (decide (b0 = 0xF4) && decide (0x80 ≤ b1) && decide (b1 ≤ 0x8F))

/-- Shifts an error position by `n`, used when returning from a suffix. -/
def shiftResult (n : Nat) : Option (Nat × Option Nat) → Option (Nat × Option Nat)
  | none => none
  | some (v, e) => some (n + v, e)

/-- Embedding of `str::from_utf8` failure data: `none` when `l` is entirely
valid UTF-8, otherwise `some (valid_up_to, error_len)` with the meaning of
`Utf8Error::valid_up_to` / `Utf8Error::error_len`. -/
def utf8Validate : List Nat → Option (Nat × Option Nat)
  | [] => none
  | b0 :: rest =>
    if b0 < 0x80 then
      shiftResult 1 (utf8Validate rest)
    else if utf8CharWidth b0 = 2 then
      match rest with
      | [] => some (0, none)
      | b1 :: r1 =>
        if isCont b1 then shiftResult 2 (utf8Validate r1)
        else some (0, some 1)
    else if utf8CharWidth b0 = 3 then
      match rest with
      | [] => some (0, none)
      | b1 :: r1 =>
        if valid3Second b0 b1 then
          match r1 with
          | [] => some (0, none)
          | b2 :: r2 =>
            if isCont b2 then shiftResult 3 (utf8Validate r2)
            else some (0, some 2)
        else some (0, some 1)
    else if utf8CharWidth b0 = 4 then
      match rest with
      | [] => some (0, none)
      | b1 :: r1 =>
        if valid4Second b0 b1 then
          match r1 with
          | [] => some (0, none)
          | b2 :: r2 =>
            if isCont b2 then
              match r2 with
              | [] => some (0, none)
              | b3 :: r3 =>
                if isCont b3 then shiftResult 4 (utf8Validate r3)
                else some (0, some 3)
            else some (0, some 2)
        else some (0, some 1)
    else
      -- width 0 lead byte: invalid on the spot
      some (0, some 1)

/-- Model of `StrChunk`: a reference counted UTF-8 slice; the embedding keeps just
its byte content. -/
structure StrChunk where
  bytes : List Nat
deriving DecidableEq, Repr

/-- Model of `ExtractUtf8Error`: the valid content recovered before the invalid
sequence, and the invalid sequence's byte length. -/
structure ExtractUtf8Error where
  extracted : StrChunk
  error_len : Nat
deriving DecidableEq, Repr

/-- Model of `StrChunk::extract_utf8(src: &mut BytesMut)`: the result paired with
the content left in `src`. Mirrors the source: on full validity the whole
buffer is split off (`src.split().freeze()`); otherwise the front part of
`valid_up_to` bytes is split off (`src.split_to`), and the outcome is `Ok`
for an incomplete trailing sequence (`error_len` absent) or `Err` with the
extracted chunk and `error_len` for an invalid sequence. -/
def StrChunk.extract_utf8 (src : List Nat) :
    Except ExtractUtf8Error StrChunk × List Nat :=
  match utf8Validate src with
  | none => (Except.ok ⟨src⟩, [])
  | some (v, none) => (Except.ok ⟨src.take v⟩, src.drop v)
  | some (v, some e) =>
      (Except.error ⟨⟨src.take v⟩, e⟩, src.drop v)

/-- Unicode scalar values: code points minus the surrogate range. -/
def IsScalar (c : Nat) : Prop :=
  c < 0xD800 ∨ (0xE000 ≤ c ∧ c < 0x110000)

instance : DecidablePred IsScalar := fun c => by
  unfold IsScalar; infer_instance

/-- UTF-8 encoding of one code point, as in `char::encode_utf8`. -/
def encodeChar (c : Nat) : List Nat :=
  if c < 0x80 then [c]
  else if c < 0x800 then
    [0xC0 + c / 0x40, 0x80 + c % 0x40]
  else if c < 0x10000 then
    [0xE0 + c / 0x1000, 0x80 + c / 0x40 % 0x40, 0x80 + c % 0x40]
  else
    [0xF0 + c / 0x40000, 0x80 + c / 0x1000 % 0x40,
     0x80 + c / 0x40 % 0x40, 0x80 + c % 0x40]

/-- UTF-8 encoding of a sequence of code points. -/
def utf8Encode (cs : List Nat) : List Nat :=
  (cs.map encodeChar).flatten

/-- UTF-8 decoding into code points; `none` on any malformed content.
Used to state the claims about decoded text. -/
def utf8Decode : List Nat → Option (List Nat)
  | [] => some []
  | b0 :: rest =>
    if b0 < 0x80 then
      (utf8Decode rest).map (b0 :: ·)
    else if utf8CharWidth b0 = 2 then
      match rest with
      | [] => none
      | b1 :: r1 =>
        if isCont b1 then
          (utf8Decode r1).map (((b0 - 0xC0) * 0x40 + (b1 - 0x80)) :: ·)
        else none
    else if utf8CharWidth b0 = 3 then
      match rest with
      | [] => none
      | b1 :: r1 =>
        if valid3Second b0 b1 then
          match r1 with
          | [] => none
          | b2 :: r2 =>
            if isCont b2 then
              (utf8Decode r2).map
                (((b0 - 0xE0) * 0x1000 + (b1 - 0x80) * 0x40 + (b2 - 0x80)) :: ·)
            else none
        else none
    else if utf8CharWidth b0 = 4 then
      match rest with
      | [] => none
      | b1 :: r1 =>
        if valid4Second b0 b1 then
          match r1 with
          | [] => none
          | b2 :: r2 =>
            if isCont b2 then
              match r2 with
              | [] => none
              | b3 :: r3 =>
                if isCont b3 then
                  (utf8Decode r3).map
                    (((b0 - 0xF0) * 0x40000 + (b1 - 0x80) * 0x1000 +
                      (b2 - 0x80) * 0x40 + (b3 - 0x80)) :: ·)
                else none
            else none
        else none
    else none

/-- Classification of a buffer tail beginning with a byte sequence that
can never be completed into valid UTF-8, whatever bytes arrive later,
together with that invalid sequence's byte length as `str::from_utf8`
reports it: a byte that can lead no sequence; a 2-, 3- or 4-byte lead
whose next byte falls outside the admissible second-byte ranges; or a
well-started 3- or 4-byte sequence broken by a later non-continuation
byte. These are exactly the shapes the validation algorithm rejects with
a present `error_len`; every other tail is valid or still completable. -/
inductive InvalidSeq : List Nat → Nat → Prop where
  | badLead (b0 : Nat) (rest : List Nat) :
      0x80 ≤ b0 → utf8CharWidth b0 = 0 →
      InvalidSeq (b0 :: rest) 1
  | badSecond2 (b0 b1 : Nat) (rest : List Nat) :
      utf8CharWidth b0 = 2 → isCont b1 = false →
      InvalidSeq (b0 :: b1 :: rest) 1
  | badSecond3 (b0 b1 : Nat) (rest : List Nat) :
      utf8CharWidth b0 = 3 → valid3Second b0 b1 = false →
      InvalidSeq (b0 :: b1 :: rest) 1
  | badThird3 (b0 b1 b2 : Nat) (rest : List Nat) :
      utf8CharWidth b0 = 3 → valid3Second b0 b1 = true →
      isCont b2 = false →
      InvalidSeq (b0 :: b1 :: b2 :: rest) 2
  | badSecond4 (b0 b1 : Nat) (rest : List Nat) :
      utf8CharWidth b0 = 4 → valid4Second b0 b1 = false →
      InvalidSeq (b0 :: b1 :: rest) 1
  | badThird4 (b0 b1 b2 : Nat) (rest : List Nat) :
      utf8CharWidth b0 = 4 → valid4Second b0 b1 = true →
      isCont b2 = false →
      InvalidSeq (b0 :: b1 :: b2 :: rest) 2
  | badFourth4 (b0 b1 b2 b3 : Nat) (rest : List Nat) :
      utf8CharWidth b0 = 4 → valid4Second b0 b1 = true →
      isCont b2 = true → isCont b3 = false →
      InvalidSeq (b0 :: b1 :: b2 :: b3 :: rest) 3

/-- The range shapes accepted by the public `TakeRange` impls of the crate
(`RangeFull`, `RangeFrom`, `RangeTo`, `RangeToInclusive`). -/
inductive StrRange where
  | full : StrRange
  | fromIdx (start : Nat) : StrRange
  | toIdx (stop : Nat) : StrRange
  | toIncl (stop : Nat) : StrRange
deriving DecidableEq, Repr

/-- Model of `SplitRange` of the range-split support code: the bound shape after
an inclusive end has been converted to an exclusive one. -/
inductive SplitRange where
  | full : SplitRange
  | fromIdx (start : Nat) : SplitRange
  | toIdx (stop : Nat) : SplitRange
deriving DecidableEq, Repr

/-- The two distinct panic messages of `str_split_fail`. -/
inductive SplitFault where
  | outOfBounds (index : Nat) : SplitFault
  | notBoundary (index : Nat) : SplitFault
deriving DecidableEq, Repr

/-- Model of `str::is_char_boundary`: 0 is always a boundary; an index inside the
content is a boundary iff the byte there is not a continuation byte; the
content length is a boundary; anything beyond is not. -/
def is_char_boundary (s : List Nat) (i : Nat) : Bool :=
  if i = 0 then true
  else
    match s[i]? with
    | none => decide (i = s.length)
    | some b => ! isCont b

/-- Model of `str_split_fail` (split.rs): picks the panic message, distinguishing
an out-of-bounds index (greater than the length) from an index that does
not split on a UTF-8 boundary. -/
def str_split_fail (s : List Nat) (index : Nat) : SplitFault :=
  if s.length < index then SplitFault.outOfBounds index
  else SplitFault.notBoundary index

/-- Model of `validate_str_split` (plumbing.rs): `none` when the bound range is
valid for the content, otherwise the fault raised by `str_split_fail`. -/
def validate_str_split (s : List Nat) (r : SplitRange) : Option SplitFault :=
  match r with
  | SplitRange.full => none
  | SplitRange.fromIdx i =>
      if is_char_boundary s i then none else some (str_split_fail s i)
  | SplitRange.toIdx i =>
      if is_char_boundary s i then none else some (str_split_fail s i)

/-- Model of `BindSlice::bind_slice` (split.rs): binds a public range shape to a
`SplitRange`, validating its finite endpoint against the content and
panicking (`Except.error`) via `str_split_fail` when it is not a char
boundary. A `RangeToInclusive` end is first converted to the exclusive
end + 1 (`convert_inclusive_range`; the `checked_add` overflow panic has
no counterpart on `Nat`), and that converted index is what is checked. -/
def bind_slice (r : StrRange) (s : List Nat) : Except SplitFault SplitRange :=
  match r with
  | StrRange.full => Except.ok SplitRange.full
  | StrRange.fromIdx i =>
      if is_char_boundary s i then Except.ok (SplitRange.fromIdx i)
      else Except.error (str_split_fail s i)
  | StrRange.toIdx i =>
      if is_char_boundary s i then Except.ok (SplitRange.toIdx i)
      else Except.error (str_split_fail s i)
  | StrRange.toIncl i =>
      if is_char_boundary s (i + 1) then Except.ok (SplitRange.toIdx (i + 1))
      else Except.error (str_split_fail s (i + 1))

/-- The `take_range` operation of the external byte containers (`Bytes`,
`BytesMut`), on content lists. Modelled from the spec (§4.5, §6): remove
the sub-range and return it (first component), leaving the remainder in
the container (second component). -/
def listTakeRange (s : List Nat) (r : SplitRange) : List Nat × List Nat :=
  match r with
  | SplitRange.full => (s, [])
  | SplitRange.fromIdx i => (s.drop i, s.take i)
  | SplitRange.toIdx i => (s.take i, s.drop i)

/-- Model of `StrChunk::take_range`: `assert_str_range!` (the validation of
`bind_slice`) runs before the byte-level operation, so a failed call is a
panic that leaves the chunk untouched. The `ok` result is the returned
chunk paired with the new content of `self`. -/
def StrChunk.take_range (c : StrChunk) (r : StrRange) :
    Except SplitFault (StrChunk × StrChunk) :=
  match bind_slice r c.bytes with
  | Except.error f => Except.error f
  | Except.ok sr =>
      Except.ok (⟨(listTakeRange c.bytes sr).1⟩, ⟨(listTakeRange c.bytes sr).2⟩)

/-- Model of `StrChunk::remove_range`: validation as in `take_range`, then the
taken range is discarded. -/
def StrChunk.remove_range (c : StrChunk) (r : StrRange) :
    Except SplitFault StrChunk :=
  match bind_slice r c.bytes with
  | Except.error f => Except.error f
  | Except.ok sr => Except.ok ⟨(listTakeRange c.bytes sr).2⟩

/-- Model of `StrChunkMut`: a uniquely owned growable UTF-8 buffer; the embedding
keeps the initialized content and the capacity that the append operations
consult. -/
structure StrChunkMut where
  bytes : List Nat
  cap : Nat
deriving DecidableEq, Repr

/-- Model of `StrChunkMut::new`. -/
def StrChunkMut.new : StrChunkMut := ⟨[], 0⟩

/-- Model of `StrChunkMut::with_capacity`. -/
def StrChunkMut.with_capacity (c : Nat) : StrChunkMut := ⟨[], c⟩

/-- Model of `StrChunkMut::remaining_mut`, per its documentation: the length of
content that can still be appended without reallocating. -/
def StrChunkMut.remaining_mut (b : StrChunkMut) : Nat :=
  b.cap - b.bytes.length

/-- Model of `StrChunkMut::reserve`: after the call at least `additional` more
bytes fit; the existing content is untouched. -/
def StrChunkMut.reserve (b : StrChunkMut) (additional : Nat) : StrChunkMut :=
  ⟨b.bytes, max b.cap (b.bytes.length + additional)⟩

/-- Model of `StrChunkMut::freeze` / `StrChunk::from(StrChunkMut)`: zero-cost
conversion keeping the content. -/
def StrChunkMut.freeze (b : StrChunkMut) : StrChunk := ⟨b.bytes⟩

/-- Model of `StrChunkMut::put_char`: encodes the code point into the spare
capacity and advances; per its documentation it panics (`none`) when the
remaining capacity cannot hold the encoding (`char::encode_utf8` against
a too-short slice). -/
def StrChunkMut.put_char (b : StrChunkMut) (c : Nat) : Option StrChunkMut :=
  if (encodeChar c).length ≤ b.remaining_mut then
    some ⟨b.bytes ++ encodeChar c, b.cap⟩
  else none

/-- Model of `StrChunkMut::extend_chars_loop`: append the pending character, pull
the next one, reserving 4 bytes between iterations. -/
def StrChunkMut.extend_chars_loop (b : StrChunkMut) (ch : Nat)
    (rest : List Nat) : Option StrChunkMut :=
  match b.put_char ch with
  | none => none
  | some b1 =>
      match rest with
      | [] => some b1
      | ch1 :: rest1 => (b1.reserve 4).extend_chars_loop ch1 rest1

/-- Model of `StrChunkMut::from_iter_chars` (the `FromIterator<char>` path): an
empty iterator gives a fresh buffer; otherwise reserve the size hint of
the remaining characters plus 5 and run the append loop. -/
def StrChunkMut.from_iter_chars (cs : List Nat) : Option StrChunkMut :=
  match cs with
  | [] => some StrChunkMut.new
  | ch :: rest =>
      (StrChunkMut.with_capacity (rest.length + 5)).extend_chars_loop ch rest

/-- Model of `StrChunkMut::take_range`: the same validate-then-split flow as
`StrChunk::take_range`. The capacities of the two resulting handles are
not tracked beyond their content. -/
def StrChunkMut.take_range (b : StrChunkMut) (r : StrRange) :
    Except SplitFault (StrChunkMut × StrChunkMut) :=
  match bind_slice r b.bytes with
  | Except.error f => Except.error f
  | Except.ok sr =>
      Except.ok (⟨(listTakeRange b.bytes sr).1, (listTakeRange b.bytes sr).1.length⟩,
        ⟨(listTakeRange b.bytes sr).2, (listTakeRange b.bytes sr).2.length⟩)

/-- Model of `StrChunkMut::remove_range`. -/
def StrChunkMut.remove_range (b : StrChunkMut) (r : StrRange) :
    Except SplitFault StrChunkMut :=
  match bind_slice r b.bytes with
  | Except.error f => Except.error f
  | Except.ok sr =>
      Except.ok ⟨(listTakeRange b.bytes sr).2, (listTakeRange b.bytes sr).2.length⟩

/-! ### Basic facts about the validator -/

@[simp]
theorem shiftResult_none (n : Nat) : shiftResult n none = none := rfl

@[simp]
theorem shiftResult_some (n v : Nat) (e : Option Nat) :
    shiftResult n (some (v, e)) = some (n + v, e) := rfl

theorem shiftResult_shiftResult (m n : Nat) (x : Option (Nat × Option Nat)) :
    shiftResult m (shiftResult n x) = shiftResult (m + n) x := by
  rcases x with _ | ⟨v, e⟩ <;> simp [Nat.add_assoc]

theorem shiftResult_zero (x : Option (Nat × Option Nat)) :
    shiftResult 0 x = x := by
  rcases x with _ | ⟨v, e⟩ <;> simp

theorem utf8Validate_cons1 (b0 : Nat) (l : List Nat) (h : b0 < 0x80) :
    utf8Validate (b0 :: l) = shiftResult 1 (utf8Validate l) := by
  rw [utf8Validate.eq_def]; simp [h]

theorem utf8Validate_cons2 (b0 b1 : Nat) (l : List Nat) (h0 : ¬ b0 < 0x80)
    (hw : utf8CharWidth b0 = 2) (hc : isCont b1 = true) :
    utf8Validate (b0 :: b1 :: l) = shiftResult 2 (utf8Validate l) := by
  rw [utf8Validate.eq_def]; simp [h0, hw, hc]

theorem utf8Validate_cons3 (b0 b1 b2 : Nat) (l : List Nat) (h0 : ¬ b0 < 0x80)
    (hw : utf8CharWidth b0 = 3) (hv : valid3Second b0 b1 = true)
    (hc : isCont b2 = true) :
    utf8Validate (b0 :: b1 :: b2 :: l) = shiftResult 3 (utf8Validate l) := by
  rw [utf8Validate.eq_def]; simp [h0, hw, hv, hc]

theorem utf8Validate_cons4 (b0 b1 b2 b3 : Nat) (l : List Nat)
    (h0 : ¬ b0 < 0x80) (hw : utf8CharWidth b0 = 4)
    (hv : valid4Second b0 b1 = true) (hc2 : isCont b2 = true)
    (hc3 : isCont b3 = true) :
    utf8Validate (b0 :: b1 :: b2 :: b3 :: l) =
      shiftResult 4 (utf8Validate l) := by
  rw [utf8Validate.eq_def]; simp [h0, hw, hv, hc2, hc3]

theorem utf8Validate_single2 (b0 : Nat) (h0 : ¬ b0 < 0x80)
    (hw : utf8CharWidth b0 = 2) : utf8Validate [b0] = some (0, none) := by
  rw [utf8Validate.eq_def]; simp [h0, hw]

theorem utf8Validate_single3 (b0 : Nat) (h0 : ¬ b0 < 0x80)
    (hw : utf8CharWidth b0 = 3) : utf8Validate [b0] = some (0, none) := by
  rw [utf8Validate.eq_def]; simp [h0, hw]

theorem utf8Validate_single4 (b0 : Nat) (h0 : ¬ b0 < 0x80)
    (hw : utf8CharWidth b0 = 4) : utf8Validate [b0] = some (0, none) := by
  rw [utf8Validate.eq_def]; simp [h0, hw]

theorem utf8Validate_pair3 (b0 b1 : Nat) (h0 : ¬ b0 < 0x80)
    (hw : utf8CharWidth b0 = 3) (hv : valid3Second b0 b1 = true) :
    utf8Validate [b0, b1] = some (0, none) := by
  rw [utf8Validate.eq_def]; simp [h0, hw, hv]

theorem utf8Validate_pair4 (b0 b1 : Nat) (h0 : ¬ b0 < 0x80)
    (hw : utf8CharWidth b0 = 4) (hv : valid4Second b0 b1 = true) :
    utf8Validate [b0, b1] = some (0, none) := by
  rw [utf8Validate.eq_def]; simp [h0, hw, hv]

theorem utf8Validate_triple4 (b0 b1 b2 : Nat) (h0 : ¬ b0 < 0x80)
    (hw : utf8CharWidth b0 = 4) (hv : valid4Second b0 b1 = true)
    (hc : isCont b2 = true) :
    utf8Validate [b0, b1, b2] = some (0, none) := by
  rw [utf8Validate.eq_def]; simp [h0, hw, hv, hc]

/-! ### The validator accepts encoded scalar values -/

theorem encodeChar_case1 (c : Nat) (h : c < 0x80) : encodeChar c = [c] := by
  simp [encodeChar, h]

theorem encodeChar_case2 (c : Nat) (h1 : ¬ c < 0x80) (h2 : c < 0x800) :
    encodeChar c = [0xC0 + c / 0x40, 0x80 + c % 0x40] := by
  simp [encodeChar, h1, h2]

theorem encodeChar_case3 (c : Nat) (h1 : ¬ c < 0x80) (h2 : ¬ c < 0x800)
    (h3 : c < 0x10000) :
    encodeChar c =
      [0xE0 + c / 0x1000, 0x80 + c / 0x40 % 0x40, 0x80 + c % 0x40] := by
  simp [encodeChar, h1, h2, h3]

theorem encodeChar_case4 (c : Nat) (h1 : ¬ c < 0x80) (h2 : ¬ c < 0x800)
    (h3 : ¬ c < 0x10000) :
    encodeChar c =
      [0xF0 + c / 0x40000, 0x80 + c / 0x1000 % 0x40,
       0x80 + c / 0x40 % 0x40, 0x80 + c % 0x40] := by
  simp [encodeChar, h1, h2, h3]

theorem conds_case2 (c : Nat) (h1 : ¬ c < 0x80) (h2 : c < 0x800) :
    ¬ 0xC0 + c / 0x40 < 0x80 ∧ utf8CharWidth (0xC0 + c / 0x40) = 2 ∧
      isCont (0x80 + c % 0x40) = true := by
  refine ⟨by omega, ?_, ?_⟩
  · unfold utf8CharWidth; split_ifs <;> omega
  · simp only [isCont, Bool.and_eq_true, decide_eq_true_eq]; omega

theorem conds_case3 (c : Nat) (hc : IsScalar c) (h1 : ¬ c < 0x80)
    (h2 : ¬ c < 0x800) (h3 : c < 0x10000) :
    ¬ 0xE0 + c / 0x1000 < 0x80 ∧ utf8CharWidth (0xE0 + c / 0x1000) = 3 ∧
      valid3Second (0xE0 + c / 0x1000) (0x80 + c / 0x40 % 0x40) = true ∧
      isCont (0x80 + c % 0x40) = true := by
  rcases hc with hs | hs
  all_goals refine ⟨by omega, ?_, ?_, ?_⟩
  all_goals first
  | (unfold utf8CharWidth; split_ifs <;> omega)
  | (simp only [valid3Second, isCont, Bool.and_eq_true, Bool.or_eq_true,
      decide_eq_true_eq]; omega)
  | (simp only [isCont, Bool.and_eq_true, decide_eq_true_eq]; omega)

theorem conds_case4 (c : Nat) (hc : IsScalar c) (h1 : ¬ c < 0x80)
    (h2 : ¬ c < 0x800) (h3 : ¬ c < 0x10000) :
    ¬ 0xF0 + c / 0x40000 < 0x80 ∧ utf8CharWidth (0xF0 + c / 0x40000) = 4 ∧
      valid4Second (0xF0 + c / 0x40000) (0x80 + c / 0x1000 % 0x40) = true ∧
      isCont (0x80 + c / 0x40 % 0x40) = true ∧
      isCont (0x80 + c % 0x40) = true := by
  rcases hc with hs | hs
  · omega
  refine ⟨by omega, ?_, ?_, ?_, ?_⟩
  · unfold utf8CharWidth; split_ifs <;> omega
  · simp only [valid4Second, isCont, Bool.and_eq_true, Bool.or_eq_true,
      decide_eq_true_eq]; omega
  · simp only [isCont, Bool.and_eq_true, decide_eq_true_eq]; omega
  · simp only [isCont, Bool.and_eq_true, decide_eq_true_eq]; omega

/-- Validating an encoded scalar value followed by anything steps over the
encoding. -/
theorem utf8Validate_encodeChar_append (c : Nat) (hc : IsScalar c)
    (l : List Nat) :
    utf8Validate (encodeChar c ++ l) =
      shiftResult (encodeChar c).length (utf8Validate l) := by
  by_cases h1 : c < 0x80
  · rw [encodeChar_case1 c h1]
    simpa using utf8Validate_cons1 c l h1
  by_cases h2 : c < 0x800
  · obtain ⟨k0, k1, k2⟩ := conds_case2 c h1 h2
    rw [encodeChar_case2 c h1 h2]
    simpa using utf8Validate_cons2 _ _ l k0 k1 k2
  by_cases h3 : c < 0x10000
  · obtain ⟨k0, k1, k2, k3⟩ := conds_case3 c hc h1 h2 h3
    rw [encodeChar_case3 c h1 h2 h3]
    simpa using utf8Validate_cons3 _ _ _ l k0 k1 k2 k3
  · obtain ⟨k0, k1, k2, k3, k4⟩ := conds_case4 c hc h1 h2 h3
    rw [encodeChar_case4 c h1 h2 h3]
    simpa using utf8Validate_cons4 _ _ _ _ l k0 k1 k2 k3 k4

/-- Validating a fully encoded sequence followed by a tail reduces to
validating the tail, with positions shifted by the encoded length. -/
theorem utf8Validate_encode_append (cs : List Nat)
    (h : ∀ c ∈ cs, IsScalar c) (t : List Nat) :
    utf8Validate (utf8Encode cs ++ t) =
      shiftResult (utf8Encode cs).length (utf8Validate t) := by
  induction cs with
  | nil => simp [utf8Encode, shiftResult_zero]
  | cons c cs ih =>
      have hc : IsScalar c := h c (List.mem_cons_self c cs)
      have hcs : ∀ x ∈ cs, IsScalar x := fun x hx => h x (List.mem_cons_of_mem c hx)
      have henc : utf8Encode (c :: cs) = encodeChar c ++ utf8Encode cs := by
        simp [utf8Encode]
      rw [henc, List.append_assoc, utf8Validate_encodeChar_append c hc,
        ih hcs, shiftResult_shiftResult, List.length_append]

/-- Completeness: the validator accepts every encoded scalar sequence. -/
theorem utf8Validate_encode (cs : List Nat) (h : ∀ c ∈ cs, IsScalar c) :
    utf8Validate (utf8Encode cs) = none := by
  have := utf8Validate_encode_append cs h []
  simpa [utf8Validate] using this

/-- A nonempty strict front part of one encoded scalar value is reported
as an incomplete sequence starting at position 0. -/
theorem utf8Validate_take_encodeChar (d : Nat) (hd : IsScalar d) (n : Nat)
    (h1 : 0 < n) (h2 : n < (encodeChar d).length) :
    utf8Validate ((encodeChar d).take n) = some (0, none) := by
  by_cases k1 : d < 0x80
  · rw [encodeChar_case1 d k1] at h2; simp at h2; omega
  by_cases k2 : d < 0x800
  · obtain ⟨c0, c1, _⟩ := conds_case2 d k1 k2
    rw [encodeChar_case2 d k1 k2] at h2 ⊢
    simp at h2
    have hn : n = 1 := by omega
    subst hn
    simpa using utf8Validate_single2 _ c0 c1
  by_cases k3 : d < 0x10000
  · obtain ⟨c0, c1, c2, _⟩ := conds_case3 d hd k1 k2 k3
    rw [encodeChar_case3 d k1 k2 k3] at h2 ⊢
    simp at h2
    interval_cases n
    · simpa using utf8Validate_single3 _ c0 c1
    · simpa using utf8Validate_pair3 _ _ c0 c1 c2
  · obtain ⟨c0, c1, c2, c3, _⟩ := conds_case4 d hd k1 k2 k3
    rw [encodeChar_case4 d k1 k2 k3] at h2 ⊢
    simp at h2
    interval_cases n
    · simpa using utf8Validate_single4 _ c0 c1
    · simpa using utf8Validate_pair4 _ _ c0 c1 c2
    · simpa using utf8Validate_triple4 _ _ _ c0 c1 c2 c3

/-- Helper for the recursive cases of `utf8Validate_drop`: when validation
steps over a complete sequence of `w` bytes, the conclusion transfers from
the suffix to the whole list. -/
theorem utf8Validate_drop_step (pre rest : List Nat)
    (hstep : utf8Validate (pre ++ rest) =
      shiftResult pre.length (utf8Validate rest))
    (ih : ∀ v e, utf8Validate rest = some (v, e) →
      utf8Validate (rest.drop v) = some (0, e) ∧
        v + e.getD 0 ≤ rest.length)
    (v : Nat) (e : Option Nat)
    (h : utf8Validate (pre ++ rest) = some (v, e)) :
    utf8Validate ((pre ++ rest).drop v) = some (0, e) ∧
      v + e.getD 0 ≤ (pre ++ rest).length := by
  rw [hstep] at h
  rcases hr : utf8Validate rest with _ | ⟨v0, e0⟩
  · rw [hr] at h; simp at h
  · rw [hr] at h
    simp only [shiftResult_some, Option.some.injEq, Prod.mk.injEq] at h
    obtain ⟨hv, he⟩ := h
    subst hv; subst he
    obtain ⟨ih1, ih2⟩ := ih v0 e0 hr
    refine ⟨?_, ?_⟩
    · rw [List.drop_append v0]; exact ih1
    · simp only [List.length_append]; omega

/-- Soundness of the error positions: whatever `utf8Validate` reports,
dropping `valid_up_to` bytes leaves a buffer whose validation reports the
same condition at position 0, and the reported invalid length stays within
the buffer. -/
theorem utf8Validate_drop (b : List Nat) :
    ∀ v e, utf8Validate b = some (v, e) →
      utf8Validate (b.drop v) = some (0, e) ∧ v + e.getD 0 ≤ b.length := by
  induction b using utf8Validate.induct with
  | case1 =>
      intro v e h
      rw [utf8Validate.eq_def] at h; simp at h
  | case2 b0 r h0 ih =>
      intro v e h
      exact utf8Validate_drop_step [b0] r
        (by simpa using utf8Validate_cons1 b0 r h0) ih v e h
  | case3 b0 h0 hw =>
      intro v e h
      rw [utf8Validate_single2 b0 h0 hw] at h
      simp only [Option.some.injEq, Prod.mk.injEq] at h
      obtain ⟨hv, he⟩ := h
      subst hv; subst he
      exact ⟨utf8Validate_single2 b0 h0 hw, by simp⟩
  | case4 b0 h0 hw b1 r1 hc ih =>
      intro v e h
      exact utf8Validate_drop_step [b0, b1] r1
        (by simpa using utf8Validate_cons2 b0 b1 r1 h0 hw hc) ih v e h
  | case5 b0 h0 hw b1 r1 hc =>
      intro v e h
      have hval : utf8Validate (b0 :: b1 :: r1) = some (0, some 1) := by
        rw [utf8Validate.eq_def]
        simp [h0, hw, hc]
      rw [hval] at h
      simp only [Option.some.injEq, Prod.mk.injEq] at h
      obtain ⟨hv, he⟩ := h
      subst hv; subst he
      exact ⟨hval, by simp⟩
  | case6 b0 h0 hw2 hw =>
      intro v e h
      rw [utf8Validate_single3 b0 h0 hw] at h
      simp only [Option.some.injEq, Prod.mk.injEq] at h
      obtain ⟨hv, he⟩ := h
      subst hv; subst he
      exact ⟨utf8Validate_single3 b0 h0 hw, by simp⟩
  | case7 b0 h0 hw2 hw b1 hv3 =>
      intro v e h
      rw [utf8Validate_pair3 b0 b1 h0 hw hv3] at h
      simp only [Option.some.injEq, Prod.mk.injEq] at h
      obtain ⟨hv, he⟩ := h
      subst hv; subst he
      exact ⟨utf8Validate_pair3 b0 b1 h0 hw hv3, by simp⟩
  | case8 b0 h0 hw2 hw b1 hv3 b2 r2 hc ih =>
      intro v e h
      exact utf8Validate_drop_step [b0, b1, b2] r2
        (by simpa using utf8Validate_cons3 b0 b1 b2 r2 h0 hw hv3 hc) ih v e h
  | case9 b0 h0 hw2 hw b1 hv3 b2 r2 hc =>
      intro v e h
      have hval : utf8Validate (b0 :: b1 :: b2 :: r2) = some (0, some 2) := by
        rw [utf8Validate.eq_def]
        simp [h0, hw2, hw, hv3, hc]
      rw [hval] at h
      simp only [Option.some.injEq, Prod.mk.injEq] at h
      obtain ⟨hv, he⟩ := h
      subst hv; subst he
      exact ⟨hval, by simp⟩
  | case10 b0 h0 hw2 hw b1 r1 hv3 =>
      intro v e h
      have hval : utf8Validate (b0 :: b1 :: r1) = some (0, some 1) := by
        rw [utf8Validate.eq_def]
        simp [h0, hw2, hw, hv3]
      rw [hval] at h
      simp only [Option.some.injEq, Prod.mk.injEq] at h
      obtain ⟨hv, he⟩ := h
      subst hv; subst he
      exact ⟨hval, by simp⟩
  | case11 b0 h0 hw2 hw3 hw =>
      intro v e h
      rw [utf8Validate_single4 b0 h0 hw] at h
      simp only [Option.some.injEq, Prod.mk.injEq] at h
      obtain ⟨hv, he⟩ := h
      subst hv; subst he
      exact ⟨utf8Validate_single4 b0 h0 hw, by simp⟩
  | case12 b0 h0 hw2 hw3 hw b1 hv4 =>
      intro v e h
      rw [utf8Validate_pair4 b0 b1 h0 hw hv4] at h
      simp only [Option.some.injEq, Prod.mk.injEq] at h
      obtain ⟨hv, he⟩ := h
      subst hv; subst he
      exact ⟨utf8Validate_pair4 b0 b1 h0 hw hv4, by simp⟩
  | case13 b0 h0 hw2 hw3 hw b1 hv4 b2 hc2 =>
      intro v e h
      rw [utf8Validate_triple4 b0 b1 b2 h0 hw hv4 hc2] at h
      simp only [Option.some.injEq, Prod.mk.injEq] at h
      obtain ⟨hv, he⟩ := h
      subst hv; subst he
      exact ⟨utf8Validate_triple4 b0 b1 b2 h0 hw hv4 hc2, by simp⟩
  | case14 b0 h0 hw2 hw3 hw b1 hv4 b2 hc2 b3 r3 hc3 ih =>
      intro v e h
      exact utf8Validate_drop_step [b0, b1, b2, b3] r3
        (by simpa using utf8Validate_cons4 b0 b1 b2 b3 r3 h0 hw hv4 hc2 hc3)
        ih v e h
  | case15 b0 h0 hw2 hw3 hw b1 hv4 b2 hc2 b3 r3 hc3 =>
      intro v e h
      have hval : utf8Validate (b0 :: b1 :: b2 :: b3 :: r3) =
          some (0, some 3) := by
        rw [utf8Validate.eq_def]
        simp [h0, hw2, hw3, hw, hv4, hc2,
          hc3]
      rw [hval] at h
      simp only [Option.some.injEq, Prod.mk.injEq] at h
      obtain ⟨hv, he⟩ := h
      subst hv; subst he
      exact ⟨hval, by simp⟩
  | case16 b0 h0 hw2 hw3 hw b1 hv4 b2 r2 hc2 =>
      intro v e h
      have hval : utf8Validate (b0 :: b1 :: b2 :: r2) = some (0, some 2) := by
        rw [utf8Validate.eq_def]
        simp [h0, hw2, hw3, hw, hv4, hc2]
      rw [hval] at h
      simp only [Option.some.injEq, Prod.mk.injEq] at h
      obtain ⟨hv, he⟩ := h
      subst hv; subst he
      exact ⟨hval, by simp⟩
  | case17 b0 h0 hw2 hw3 hw b1 r1 hv4 =>
      intro v e h
      have hval : utf8Validate (b0 :: b1 :: r1) = some (0, some 1) := by
        rw [utf8Validate.eq_def]
        simp [h0, hw2, hw3, hw, hv4]
      rw [hval] at h
      simp only [Option.some.injEq, Prod.mk.injEq] at h
      obtain ⟨hv, he⟩ := h
      subst hv; subst he
      exact ⟨hval, by simp⟩
  | case18 b0 r h0 hw2 hw3 hw4 =>
      intro v e h
      have hval : utf8Validate (b0 :: r) = some (0, some 1) := by
        rw [utf8Validate.eq_def]
        simp [h0, hw2, hw3, hw4]
      rw [hval] at h
      simp only [Option.some.injEq, Prod.mk.injEq] at h
      obtain ⟨hv, he⟩ := h
      subst hv; subst he
      exact ⟨hval, by simp⟩

/-! ### Decoding inverts encoding -/

theorem utf8Decode_encodeChar_append (c : Nat) (hc : IsScalar c)
    (l : List Nat) :
    utf8Decode (encodeChar c ++ l) = (utf8Decode l).map (c :: ·) := by
  by_cases h1 : c < 0x80
  · rw [encodeChar_case1 c h1, utf8Decode.eq_def]
    simp [h1]
  by_cases h2 : c < 0x800
  · obtain ⟨c0, c1, c2⟩ := conds_case2 c h1 h2
    rw [encodeChar_case2 c h1 h2]
    rw [utf8Decode.eq_def]
    simp [c0, c1, c2]
    have hval : c / 0x40 * 0x40 + c % 0x40 = c := by omega
    rw [hval]
  by_cases h3 : c < 0x10000
  · obtain ⟨c0, c1, c2, c3⟩ := conds_case3 c hc h1 h2 h3
    rw [encodeChar_case3 c h1 h2 h3]
    rw [utf8Decode.eq_def]
    simp [c0, c1, c2, c3]
    have hval : c / 0x1000 * 0x1000 + c / 0x40 % 0x40 * 0x40 + c % 0x40
        = c := by omega
    rw [hval]
  · obtain ⟨c0, c1, c2, c3, c4⟩ := conds_case4 c hc h1 h2 h3
    rw [encodeChar_case4 c h1 h2 h3]
    rw [utf8Decode.eq_def]
    simp [c0, c1, c2, c3, c4]
    have hval : c / 0x40000 * 0x40000 + c / 0x1000 % 0x40 * 0x1000 +
        c / 0x40 % 0x40 * 0x40 + c % 0x40 = c := by omega
    rw [hval]

theorem utf8Decode_encode (cs : List Nat) (h : ∀ c ∈ cs, IsScalar c) :
    utf8Decode (utf8Encode cs) = some cs := by
  induction cs with
  | nil => simp [utf8Encode, utf8Decode]
  | cons c cs ih =>
      have hc : IsScalar c := h c (List.mem_cons_self c cs)
      have hcs : ∀ x ∈ cs, IsScalar x :=
        fun x hx => h x (List.mem_cons_of_mem c hx)
      have henc : utf8Encode (c :: cs) = encodeChar c ++ utf8Encode cs := by
        simp [utf8Encode]
      rw [henc, utf8Decode_encodeChar_append c hc, ih hcs]
      rfl

/-! ### Structure of the extractor results -/

theorem utf8Encode_append (cs1 cs2 : List Nat) :
    utf8Encode (cs1 ++ cs2) = utf8Encode cs1 ++ utf8Encode cs2 := by
  simp [utf8Encode]

theorem extract_utf8_of_validate_none (b : List Nat)
    (h : utf8Validate b = none) :
    StrChunk.extract_utf8 b = (Except.ok ⟨b⟩, []) := by
  unfold StrChunk.extract_utf8; rw [h]

theorem extract_utf8_of_validate_incomplete (b : List Nat) (v : Nat)
    (h : utf8Validate b = some (v, none)) :
    StrChunk.extract_utf8 b = (Except.ok ⟨b.take v⟩, b.drop v) := by
  unfold StrChunk.extract_utf8; rw [h]

theorem extract_utf8_of_validate_invalid (b : List Nat) (v k : Nat)
    (h : utf8Validate b = some (v, some k)) :
    StrChunk.extract_utf8 b = (Except.error ⟨⟨b.take v⟩, k⟩, b.drop v) := by
  unfold StrChunk.extract_utf8; rw [h]

/-! ### Claims about the incremental extractor -/

/-- Claim C1: for every byte sequence that is entirely valid UTF-8 — i.e. the
encoding of a sequence of Unicode scalar values — `extract_utf8` returns
`Ok` with a chunk holding exactly those bytes (whose decoded text is that
scalar sequence) and leaves the raw buffer empty. -/
theorem extract_utf8_fully_valid (cs : List Nat)
    (h : ∀ c ∈ cs, IsScalar c) :
    StrChunk.extract_utf8 (utf8Encode cs) =
      (Except.ok ⟨utf8Encode cs⟩, []) ∧
    utf8Decode (utf8Encode cs) = some cs :=
  ⟨extract_utf8_of_validate_none _ (utf8Validate_encode cs h),
   utf8Decode_encode cs h⟩

theorem extract_utf8_fully_valid_witness :
    (∀ c ∈ [0x48, 0x417, 0x20AC, 0x10348], IsScalar c) ∧
    StrChunk.extract_utf8 (utf8Encode [0x48, 0x417, 0x20AC, 0x10348]) =
      (Except.ok ⟨utf8Encode [0x48, 0x417, 0x20AC, 0x10348]⟩, []) ∧
    utf8Decode (utf8Encode [0x48, 0x417, 0x20AC, 0x10348]) =
      some [0x48, 0x417, 0x20AC, 0x10348] :=
  ⟨by decide,
   (extract_utf8_fully_valid [0x48, 0x417, 0x20AC, 0x10348] (by decide)).1,
   (extract_utf8_fully_valid [0x48, 0x417, 0x20AC, 0x10348] (by decide)).2⟩

/-- Claim C2: a raw buffer made of a valid UTF-8 part followed by a nonempty
strict front part of one more encoded scalar value (an incomplete
sequence) extracts to `Ok` with exactly the valid part, leaving exactly
the incomplete bytes; and on the concrete bytes of "Здравствуй" cut at
index 9, the first call yields the bytes of "Здра" leaving 0xD0, and
after appending the rest the second call yields the bytes of "вствуй"
with an empty remainder. -/
theorem extract_utf8_incomplete (cs : List Nat) (d : Nat) (t : List Nat)
    (hcs : ∀ c ∈ cs, IsScalar c) (hd : IsScalar d) (h1 : t ≠ [])
    (h2 : t.length < (encodeChar d).length)
    (h3 : t = (encodeChar d).take t.length) :
    (StrChunk.extract_utf8 (utf8Encode cs ++ t) =
      (Except.ok ⟨utf8Encode cs⟩, t)) ∧
    StrChunk.extract_utf8
        [0xD0, 0x97, 0xD0, 0xB4, 0xD1, 0x80, 0xD0, 0xB0, 0xD0] =
      (Except.ok ⟨[0xD0, 0x97, 0xD0, 0xB4, 0xD1, 0x80, 0xD0, 0xB0]⟩,
       [0xD0]) ∧
    utf8Decode [0xD0, 0x97, 0xD0, 0xB4, 0xD1, 0x80, 0xD0, 0xB0] =
      some [0x417, 0x434, 0x440, 0x430] ∧
    StrChunk.extract_utf8
        ([0xD0] ++ [0xB2, 0xD1, 0x81, 0xD1, 0x82, 0xD0, 0xB2, 0xD1, 0x83,
          0xD0, 0xB9]) =
      (Except.ok
        ⟨[0xD0, 0xB2, 0xD1, 0x81, 0xD1, 0x82, 0xD0, 0xB2, 0xD1, 0x83, 0xD0,
          0xB9]⟩, []) ∧
    utf8Decode
        [0xD0, 0xB2, 0xD1, 0x81, 0xD1, 0x82, 0xD0, 0xB2, 0xD1, 0x83, 0xD0,
          0xB9] =
      some [0x432, 0x441, 0x442, 0x432, 0x443, 0x439] := by
  refine ⟨?_, by rfl, by decide, by rfl, by decide⟩
  have hlen : 0 < t.length := List.length_pos.mpr h1
  have hval : utf8Validate t = some (0, none) := by
    rw [h3]
    exact utf8Validate_take_encodeChar d hd t.length hlen h2
  have happ := utf8Validate_encode_append cs hcs t
  rw [hval] at happ
  simp only [shiftResult_some, Nat.add_zero] at happ
  rw [extract_utf8_of_validate_incomplete _ _ happ,
    List.take_left (utf8Encode cs) t, List.drop_left (utf8Encode cs) t]

theorem extract_utf8_incomplete_witness :
    ((¬ ([0xD0] : List Nat) = []) ∧
      ([0xD0] : List Nat).length < (encodeChar 0x417).length ∧
      ([0xD0] : List Nat) = (encodeChar 0x417).take 1) ∧
    StrChunk.extract_utf8 (utf8Encode [0x48] ++ [0xD0]) =
      (Except.ok ⟨utf8Encode [0x48]⟩, [0xD0]) :=
  ⟨⟨by decide, by decide, by decide⟩,
   (extract_utf8_incomplete [0x48] 0x417 [0xD0] (by decide) (by decide)
     (by decide) (by decide) (by decide)).1⟩

theorem not_ascii_of_width (b0 w : Nat) (hw : utf8CharWidth b0 = w)
    (h1 : w ≠ 1) : ¬ b0 < 0x80 := by
  intro hlt
  unfold utf8CharWidth at hw
  rw [if_pos hlt] at hw
  exact h1 hw.symm

/-- Every never-completable tail is rejected by the validator at
position 0 with exactly its classified invalid length. -/
theorem utf8Validate_invalidSeq (t : List Nat) (k : Nat)
    (h : InvalidSeq t k) : utf8Validate t = some (0, some k) := by
  cases h with
  | badLead b0 rest h0 hw =>
      rw [utf8Validate.eq_def]
      simp [hw, show ¬ b0 < 0x80 by omega]
  | badSecond2 b0 b1 rest hw hc =>
      rw [utf8Validate.eq_def]
      simp [not_ascii_of_width b0 2 hw (by decide), hw, hc]
  | badSecond3 b0 b1 rest hw hv =>
      rw [utf8Validate.eq_def]
      simp [not_ascii_of_width b0 3 hw (by decide), hw, hv]
  | badThird3 b0 b1 b2 rest hw hv hc =>
      rw [utf8Validate.eq_def]
      simp [not_ascii_of_width b0 3 hw (by decide), hw, hv, hc]
  | badSecond4 b0 b1 rest hw hv =>
      rw [utf8Validate.eq_def]
      simp [not_ascii_of_width b0 4 hw (by decide), hw, hv]
  | badThird4 b0 b1 b2 rest hw hv hc =>
      rw [utf8Validate.eq_def]
      simp [not_ascii_of_width b0 4 hw (by decide), hw, hv, hc]
  | badFourth4 b0 b1 b2 b3 rest hw hv hc2 hc3 =>
      rw [utf8Validate.eq_def]
      simp [not_ascii_of_width b0 4 hw (by decide), hw, hv, hc2, hc3]

/-- Claim C3: a raw buffer made of a valid UTF-8 part followed by any
byte sequence that can never be completed into valid UTF-8 — an
impossible lead, a bad second byte after any multi-byte lead, or a
broken continuation later in a 3- or 4-byte sequence — extracts to `Err`
carrying the valid part (removed from the buffer) and that invalid
sequence's byte length, with the invalid bytes left at the front of the
buffer; and on the concrete bytes of `b"Hello \xF0\x90\x80World"` the
error carries the bytes of "Hello " and invalid length 3, and advancing
by 3 and re-extracting yields "World". -/
theorem extract_utf8_invalid (cs t : List Nat) (k : Nat)
    (hcs : ∀ c ∈ cs, IsScalar c) (ht : InvalidSeq t k) :
    (StrChunk.extract_utf8 (utf8Encode cs ++ t) =
      (Except.error ⟨⟨utf8Encode cs⟩, k⟩, t)) ∧
    StrChunk.extract_utf8
        [0x48, 0x65, 0x6C, 0x6C, 0x6F, 0x20, 0xF0, 0x90, 0x80, 0x57, 0x6F,
          0x72, 0x6C, 0x64] =
      (Except.error ⟨⟨[0x48, 0x65, 0x6C, 0x6C, 0x6F, 0x20]⟩, 3⟩,
       [0xF0, 0x90, 0x80, 0x57, 0x6F, 0x72, 0x6C, 0x64]) ∧
    utf8Decode [0x48, 0x65, 0x6C, 0x6C, 0x6F, 0x20] =
      some [0x48, 0x65, 0x6C, 0x6C, 0x6F, 0x20] ∧
    List.drop 3 [0xF0, 0x90, 0x80, 0x57, 0x6F, 0x72, 0x6C, 0x64] =
      [0x57, 0x6F, 0x72, 0x6C, 0x64] ∧
    StrChunk.extract_utf8 [0x57, 0x6F, 0x72, 0x6C, 0x64] =
      (Except.ok ⟨[0x57, 0x6F, 0x72, 0x6C, 0x64]⟩, []) ∧
    utf8Decode [0x57, 0x6F, 0x72, 0x6C, 0x64] =
      some [0x57, 0x6F, 0x72, 0x6C, 0x64] := by
  refine ⟨?_, by rfl, by decide, by decide, by rfl, by decide⟩
  have hval : utf8Validate t = some (0, some k) :=
    utf8Validate_invalidSeq t k ht
  have happ := utf8Validate_encode_append cs hcs t
  rw [hval] at happ
  simp only [shiftResult_some, Nat.add_zero] at happ
  rw [extract_utf8_of_validate_invalid _ _ _ happ,
    List.take_left (utf8Encode cs) t,
    List.drop_left (utf8Encode cs) t]

theorem extract_utf8_invalid_witness :
    ((∀ c ∈ [0x48, 0x65, 0x6C, 0x6C, 0x6F, 0x20], IsScalar c) ∧
      InvalidSeq [0xF0, 0x90, 0x80, 0x57, 0x6F, 0x72, 0x6C, 0x64] 3) ∧
    StrChunk.extract_utf8 (utf8Encode [0x48, 0x65, 0x6C, 0x6C, 0x6F, 0x20]
        ++ [0xF0, 0x90, 0x80, 0x57, 0x6F, 0x72, 0x6C, 0x64]) =
      (Except.error ⟨⟨utf8Encode [0x48, 0x65, 0x6C, 0x6C, 0x6F, 0x20]⟩, 3⟩,
       [0xF0, 0x90, 0x80, 0x57, 0x6F, 0x72, 0x6C, 0x64]) :=
  ⟨⟨by decide,
    InvalidSeq.badFourth4 0xF0 0x90 0x80 0x57 [0x6F, 0x72, 0x6C, 0x64]
      (by decide) (by decide) (by decide) (by decide)⟩,
   (extract_utf8_invalid [0x48, 0x65, 0x6C, 0x6C, 0x6F, 0x20]
     [0xF0, 0x90, 0x80, 0x57, 0x6F, 0x72, 0x6C, 0x64] 3 (by decide)
     (InvalidSeq.badFourth4 0xF0 0x90 0x80 0x57 [0x6F, 0x72, 0x6C, 0x64]
       (by decide) (by decide) (by decide) (by decide))).1⟩

/-- Claim C4: feeding the encoding of a scalar sequence split anywhere at a
code-point boundary through two sequential extract calls reproduces the
whole encoding, with nothing left in the buffer: extraction is
chunk-boundary-independent. -/
theorem extract_utf8_chunk_independent (cs1 cs2 : List Nat)
    (h : ∀ c ∈ cs1 ++ cs2, IsScalar c) :
    ∃ (c1 c2 : StrChunk) (rem1 rem2 : List Nat),
      StrChunk.extract_utf8 (utf8Encode cs1) = (Except.ok c1, rem1) ∧
      StrChunk.extract_utf8 (rem1 ++ utf8Encode cs2) =
        (Except.ok c2, rem2) ∧
      c1.bytes ++ c2.bytes = utf8Encode (cs1 ++ cs2) ∧ rem2 = [] ∧
      utf8Decode (c1.bytes ++ c2.bytes) = some (cs1 ++ cs2) := by
  have h1 : ∀ c ∈ cs1, IsScalar c :=
    fun c hc => h c (List.mem_append_left cs2 hc)
  have h2 : ∀ c ∈ cs2, IsScalar c :=
    fun c hc => h c (List.mem_append_right cs1 hc)
  refine ⟨⟨utf8Encode cs1⟩, ⟨utf8Encode cs2⟩, [], [], ?_, ?_, ?_, rfl, ?_⟩
  · exact extract_utf8_of_validate_none _ (utf8Validate_encode cs1 h1)
  · simpa using extract_utf8_of_validate_none _ (utf8Validate_encode cs2 h2)
  · exact (utf8Encode_append cs1 cs2).symm
  · rw [← utf8Encode_append cs1 cs2]
    exact utf8Decode_encode (cs1 ++ cs2) h

theorem extract_utf8_chunk_independent_witness :
    (∀ c ∈ [0x417] ++ [0x48], IsScalar c) ∧
    (∃ (c1 c2 : StrChunk) (rem1 rem2 : List Nat),
      StrChunk.extract_utf8 (utf8Encode [0x417]) = (Except.ok c1, rem1) ∧
      StrChunk.extract_utf8 (rem1 ++ utf8Encode [0x48]) =
        (Except.ok c2, rem2) ∧
      c1.bytes ++ c2.bytes = utf8Encode ([0x417] ++ [0x48]) ∧ rem2 = [] ∧
      utf8Decode (c1.bytes ++ c2.bytes) = some ([0x417] ++ [0x48])) :=
  ⟨by decide, extract_utf8_chunk_independent [0x417] [0x48] (by decide)⟩

/-- Claim C9: extraction conserves the bytes: the extracted content followed by
the remaining buffer is exactly the input, in both the `Ok` and the `Err`
outcome, and in the `Err` outcome the reported invalid length lies within
the remaining buffer (the invalid bytes are at its front). -/
theorem extract_utf8_conserves (b : List Nat) :
    (∀ (chunk : StrChunk) (rem : List Nat),
      StrChunk.extract_utf8 b = (Except.ok chunk, rem) →
        chunk.bytes ++ rem = b) ∧
    (∀ (err : ExtractUtf8Error) (rem : List Nat),
      StrChunk.extract_utf8 b = (Except.error err, rem) →
        err.extracted.bytes ++ rem = b ∧ err.error_len ≤ rem.length) := by
  rcases hv : utf8Validate b with _ | ⟨v, e⟩
  · have hb := extract_utf8_of_validate_none b hv
    constructor
    · intro chunk rem h
      rw [hb] at h
      obtain ⟨h1, h2⟩ := Prod.mk.injEq .. ▸ h
      cases h1; cases h2
      simp
    · intro err rem h
      rw [hb] at h
      exact absurd (congrArg Prod.fst h) (by simp)
  rcases e with _ | k
  · have hb := extract_utf8_of_validate_incomplete b v hv
    constructor
    · intro chunk rem h
      rw [hb] at h
      obtain ⟨h1, h2⟩ := Prod.mk.injEq .. ▸ h
      cases h1; cases h2
      simp
    · intro err rem h
      rw [hb] at h
      exact absurd (congrArg Prod.fst h) (by simp)
  · have hb := extract_utf8_of_validate_invalid b v k hv
    constructor
    · intro chunk rem h
      rw [hb] at h
      exact absurd (congrArg Prod.fst h) (by simp)
    · intro err rem h
      rw [hb] at h
      obtain ⟨h1, h2⟩ := Prod.mk.injEq .. ▸ h
      cases h1; cases h2
      have hbound := (utf8Validate_drop b v (some k) hv).2
      refine ⟨by simp, ?_⟩
      simp only [List.length_drop]
      simp only [Option.getD_some] at hbound
      omega

theorem extract_utf8_conserves_witness :
    (StrChunk.mk [0x41]).bytes ++ [0xD0] = [0x41, 0xD0] ∧
    ((ExtractUtf8Error.mk ⟨[0x41]⟩ 1).extracted.bytes ++ [0xFF] =
        [0x41, 0xFF] ∧
      (ExtractUtf8Error.mk ⟨[0x41]⟩ 1).error_len ≤ [0xFF].length) := by
  constructor
  · have := (extract_utf8_conserves [0x41, 0xD0]).1 ⟨[0x41]⟩ [0xD0] (by rfl)
    simpa using this
  · exact (extract_utf8_conserves [0x41, 0xFF]).2 ⟨⟨[0x41]⟩, 1⟩ [0xFF]
      (by rfl)

/-- Claim C10: no progress without new input: when `extract_utf8` returns `Ok`,
re-running it on the remaining buffer yields an empty chunk and leaves
the remainder unchanged. -/
theorem extract_utf8_no_progress (b rem : List Nat) (chunk : StrChunk)
    (h : StrChunk.extract_utf8 b = (Except.ok chunk, rem)) :
    StrChunk.extract_utf8 rem = (Except.ok ⟨[]⟩, rem) := by
  rcases hv : utf8Validate b with _ | ⟨v, e⟩
  · have hb := extract_utf8_of_validate_none b hv
    rw [hb] at h
    have hrem : rem = [] := (congrArg Prod.snd h).symm
    subst hrem
    exact extract_utf8_of_validate_none [] rfl
  rcases e with _ | k
  · have hb := extract_utf8_of_validate_incomplete b v hv
    rw [hb] at h
    have hrem : rem = b.drop v := (congrArg Prod.snd h).symm
    subst hrem
    have hdrop := (utf8Validate_drop b v none hv).1
    have := extract_utf8_of_validate_incomplete _ _ hdrop
    simpa using this
  · have hb := extract_utf8_of_validate_invalid b v k hv
    rw [hb] at h
    exact absurd (congrArg Prod.fst h) (by simp)

theorem extract_utf8_no_progress_witness :
    StrChunk.extract_utf8 [0xD0] = (Except.ok ⟨[]⟩, [0xD0]) :=
  extract_utf8_no_progress [0x41, 0xD0] [0xD0] ⟨[0x41]⟩ (by rfl)

/-! ### Claims about the boundary checks and range operations -/

/-- Claim C5 counterexample: on a chunk holding "я" (bytes D1 8F), the
to-end-inclusive range with finite endpoint 1 has that endpoint inside
the two-byte character — not on a code-point boundary — yet `take_range`
succeeds (taking the whole content) instead of faulting, because the
index actually validated is endpoint + 1 = 2. -/
theorem take_range_inclusive_endpoint_no_fault :
    is_char_boundary [0xD1, 0x8F] 1 = false ∧
    StrChunk.take_range ⟨[0xD1, 0x8F]⟩ (StrRange.toIncl 1) =
      Except.ok (⟨[0xD1, 0x8F]⟩, ⟨[]⟩) :=
  ⟨by decide, by rfl⟩

/-- Claim C5 (amended): on both buffer types, `take_range` and
`remove_range` fault via `str_split_fail` — before any mutation,
producing no buffer — exactly when the index the code validates is out
of bounds or not on a UTF-8 code-point boundary; that index is the
finite endpoint itself for from-start and to-end-exclusive ranges, but
endpoint + 1 (the converted exclusive end) for to-end-inclusive ranges;
the full range never faults. -/
theorem take_range_boundary_faults (c : StrChunk) (m : StrChunkMut)
    (i : Nat) :
    ((c.take_range (StrRange.fromIdx i) =
        Except.error (str_split_fail c.bytes i) ↔
      is_char_boundary c.bytes i = false) ∧
     (c.take_range (StrRange.toIdx i) =
        Except.error (str_split_fail c.bytes i) ↔
      is_char_boundary c.bytes i = false) ∧
     (c.take_range (StrRange.toIncl i) =
        Except.error (str_split_fail c.bytes (i + 1)) ↔
      is_char_boundary c.bytes (i + 1) = false) ∧
     c.take_range StrRange.full = Except.ok (⟨c.bytes⟩, ⟨[]⟩)) ∧
    ((c.remove_range (StrRange.fromIdx i) =
        Except.error (str_split_fail c.bytes i) ↔
      is_char_boundary c.bytes i = false) ∧
     (c.remove_range (StrRange.toIdx i) =
        Except.error (str_split_fail c.bytes i) ↔
      is_char_boundary c.bytes i = false) ∧
     (c.remove_range (StrRange.toIncl i) =
        Except.error (str_split_fail c.bytes (i + 1)) ↔
      is_char_boundary c.bytes (i + 1) = false) ∧
     c.remove_range StrRange.full = Except.ok ⟨[]⟩) ∧
    ((m.take_range (StrRange.fromIdx i) =
        Except.error (str_split_fail m.bytes i) ↔
      is_char_boundary m.bytes i = false) ∧
     (m.take_range (StrRange.toIdx i) =
        Except.error (str_split_fail m.bytes i) ↔
      is_char_boundary m.bytes i = false) ∧
     (m.take_range (StrRange.toIncl i) =
        Except.error (str_split_fail m.bytes (i + 1)) ↔
      is_char_boundary m.bytes (i + 1) = false) ∧
     m.take_range StrRange.full =
       Except.ok (⟨m.bytes, m.bytes.length⟩, ⟨[], 0⟩)) ∧
    ((m.remove_range (StrRange.fromIdx i) =
        Except.error (str_split_fail m.bytes i) ↔
      is_char_boundary m.bytes i = false) ∧
     (m.remove_range (StrRange.toIdx i) =
        Except.error (str_split_fail m.bytes i) ↔
      is_char_boundary m.bytes i = false) ∧
     (m.remove_range (StrRange.toIncl i) =
        Except.error (str_split_fail m.bytes (i + 1)) ↔
      is_char_boundary m.bytes (i + 1) = false) ∧
     m.remove_range StrRange.full = Except.ok ⟨[], 0⟩) := by
  refine ⟨⟨?_, ?_, ?_, rfl⟩, ⟨?_, ?_, ?_, rfl⟩, ⟨?_, ?_, ?_, rfl⟩,
    ⟨?_, ?_, ?_, rfl⟩⟩
  all_goals
    first
    | (cases hb : is_char_boundary c.bytes i <;>
        simp [StrChunk.take_range, StrChunk.remove_range, bind_slice, hb]
      <;> done)
    | (cases hb : is_char_boundary c.bytes (i + 1) <;>
        simp [StrChunk.take_range, StrChunk.remove_range, bind_slice, hb]
      <;> done)
    | (cases hb : is_char_boundary m.bytes i <;>
        simp [StrChunkMut.take_range, StrChunkMut.remove_range, bind_slice,
          hb] <;> done)
    | (cases hb : is_char_boundary m.bytes (i + 1) <;>
        simp [StrChunkMut.take_range, StrChunkMut.remove_range, bind_slice,
          hb] <;> done)

theorem take_range_boundary_faults_witness :
    StrChunk.take_range
        ⟨[0xD0, 0x9F, 0xD1, 0x80, 0xD0, 0xB8, 0xD0, 0xB2, 0xD0, 0xB5, 0xD1,
          0x82]⟩ (StrRange.fromIdx 3) =
      Except.error (str_split_fail
        [0xD0, 0x9F, 0xD1, 0x80, 0xD0, 0xB8, 0xD0, 0xB2, 0xD0, 0xB5, 0xD1,
          0x82] 3) ∧
    StrChunkMut.remove_range
        ⟨[0xD0, 0x9F, 0xD1, 0x80, 0xD0, 0xB8, 0xD0, 0xB2, 0xD0, 0xB5, 0xD1,
          0x82], 12⟩ (StrRange.toIncl 0) =
      Except.error (str_split_fail
        [0xD0, 0x9F, 0xD1, 0x80, 0xD0, 0xB8, 0xD0, 0xB2, 0xD0, 0xB5, 0xD1,
          0x82] (0 + 1)) ∧
    StrChunkMut.take_range
        ⟨[0xD0, 0x9F, 0xD1, 0x80, 0xD0, 0xB8, 0xD0, 0xB2, 0xD0, 0xB5, 0xD1,
          0x82], 12⟩ StrRange.full =
      Except.ok
        (⟨[0xD0, 0x9F, 0xD1, 0x80, 0xD0, 0xB8, 0xD0, 0xB2, 0xD0, 0xB5, 0xD1,
          0x82], 12⟩, ⟨[], 0⟩) ∧
    ¬ StrChunk.remove_range
        ⟨[0xD0, 0x9F, 0xD1, 0x80, 0xD0, 0xB8, 0xD0, 0xB2, 0xD0, 0xB5, 0xD1,
          0x82]⟩ (StrRange.toIdx 4) =
      Except.error (str_split_fail
        [0xD0, 0x9F, 0xD1, 0x80, 0xD0, 0xB8, 0xD0, 0xB2, 0xD0, 0xB5, 0xD1,
          0x82] 4) :=
  ⟨((take_range_boundary_faults
      ⟨[0xD0, 0x9F, 0xD1, 0x80, 0xD0, 0xB8, 0xD0, 0xB2, 0xD0, 0xB5, 0xD1,
        0x82]⟩
      ⟨[0xD0, 0x9F, 0xD1, 0x80, 0xD0, 0xB8, 0xD0, 0xB2, 0xD0, 0xB5, 0xD1,
        0x82], 12⟩ 3).1.1).mpr (by decide),
   ((take_range_boundary_faults
      ⟨[0xD0, 0x9F, 0xD1, 0x80, 0xD0, 0xB8, 0xD0, 0xB2, 0xD0, 0xB5, 0xD1,
        0x82]⟩
      ⟨[0xD0, 0x9F, 0xD1, 0x80, 0xD0, 0xB8, 0xD0, 0xB2, 0xD0, 0xB5, 0xD1,
        0x82], 12⟩ 0).2.2.2.2.2.1).mpr (by decide),
   (take_range_boundary_faults
      ⟨[0xD0, 0x9F, 0xD1, 0x80, 0xD0, 0xB8, 0xD0, 0xB2, 0xD0, 0xB5, 0xD1,
        0x82]⟩
      ⟨[0xD0, 0x9F, 0xD1, 0x80, 0xD0, 0xB8, 0xD0, 0xB2, 0xD0, 0xB5, 0xD1,
        0x82], 12⟩ 0).2.2.1.2.2.2,
   fun h =>
     absurd (((take_range_boundary_faults
      ⟨[0xD0, 0x9F, 0xD1, 0x80, 0xD0, 0xB8, 0xD0, 0xB2, 0xD0, 0xB5, 0xD1,
        0x82]⟩
      ⟨[0xD0, 0x9F, 0xD1, 0x80, 0xD0, 0xB8, 0xD0, 0xB2, 0xD0, 0xB5, 0xD1,
        0x82], 12⟩ 4).2.1.2.1).mp h) (by decide)⟩

/-- Claim C6: the boundary check holds at 0 and at the content length, an
interior index is a boundary exactly when its byte is not a continuation
byte (0x80–0xBF), and the failure message distinguishes an index greater
than the buffer length (out of bounds) from one splitting a multi-byte
sequence. -/
theorem is_char_boundary_spec (s : List Nat) (i : Nat) :
    is_char_boundary s 0 = true ∧
    is_char_boundary s s.length = true ∧
    (∀ b, i ≠ 0 → s[i]? = some b →
      (is_char_boundary s i = true ↔ isCont b = false)) ∧
    (s.length < i → str_split_fail s i = SplitFault.outOfBounds i) ∧
    (i ≤ s.length → str_split_fail s i = SplitFault.notBoundary i) := by
  refine ⟨by simp [is_char_boundary], ?_, ?_, ?_, ?_⟩
  · unfold is_char_boundary
    by_cases h : s.length = 0
    · simp [h]
    · rw [if_neg h]
      have : s[s.length]? = none := by
        simp
      rw [this]
      simp
  · intro b hi hb
    unfold is_char_boundary
    rw [if_neg hi, hb]
    simp
  · intro h
    unfold str_split_fail
    rw [if_pos h]
  · intro h
    unfold str_split_fail
    rw [if_neg (by omega)]

theorem is_char_boundary_spec_witness :
    is_char_boundary [0xD0, 0x9F, 0xD1, 0x80] 0 = true ∧
    (is_char_boundary [0xD0, 0x9F, 0xD1, 0x80] 1 = true ↔
      isCont 0x9F = false) ∧
    str_split_fail [0xD0, 0x9F, 0xD1, 0x80] 5 =
      SplitFault.outOfBounds 5 ∧
    str_split_fail [0xD0, 0x9F, 0xD1, 0x80] 1 =
      SplitFault.notBoundary 1 :=
  ⟨(is_char_boundary_spec [0xD0, 0x9F, 0xD1, 0x80] 1).1,
   (is_char_boundary_spec [0xD0, 0x9F, 0xD1, 0x80] 1).2.2.1 0x9F
     (by decide) (by decide),
   (is_char_boundary_spec [0xD0, 0x9F, 0xD1, 0x80] 5).2.2.2.1 (by decide),
   (is_char_boundary_spec [0xD0, 0x9F, 0xD1, 0x80] 1).2.2.2.2 (by decide)⟩

/-! ### Claims about the exclusive buffer appends -/

theorem encodeChar_length_le (c : Nat) : (encodeChar c).length ≤ 4 := by
  unfold encodeChar
  split_ifs <;> simp

theorem extend_chars_loop_spec (rest : List Nat) :
    ∀ (b : StrChunkMut) (ch : Nat), 4 ≤ b.remaining_mut →
      ∃ b1, b.extend_chars_loop ch rest = some b1 ∧
        b1.bytes = b.bytes ++ (encodeChar ch ++ utf8Encode rest) := by
  induction rest with
  | nil =>
      intro b ch h
      have hput : b.put_char ch = some ⟨b.bytes ++ encodeChar ch, b.cap⟩ := by
        unfold StrChunkMut.put_char
        rw [if_pos (le_trans (encodeChar_length_le ch) h)]
      refine ⟨⟨b.bytes ++ encodeChar ch, b.cap⟩, ?_, ?_⟩
      · unfold StrChunkMut.extend_chars_loop
        rw [hput]
      · simp [utf8Encode]
  | cons ch1 rest1 ih =>
      intro b ch h
      have hput : b.put_char ch = some ⟨b.bytes ++ encodeChar ch, b.cap⟩ := by
        unfold StrChunkMut.put_char
        rw [if_pos (le_trans (encodeChar_length_le ch) h)]
      have hres : 4 ≤ ((⟨b.bytes ++ encodeChar ch, b.cap⟩ :
          StrChunkMut).reserve 4).remaining_mut := by
        simp [StrChunkMut.reserve, StrChunkMut.remaining_mut]
        omega
      obtain ⟨b1, hb1, hbytes⟩ :=
        ih ((⟨b.bytes ++ encodeChar ch, b.cap⟩ : StrChunkMut).reserve 4) ch1
          hres
      refine ⟨b1, ?_, ?_⟩
      · unfold StrChunkMut.extend_chars_loop
        rw [hput]
        exact hb1
      · rw [hbytes]
        have : utf8Encode (ch1 :: rest1) =
            encodeChar ch1 ++ utf8Encode rest1 := by
          simp [utf8Encode]
        simp [StrChunkMut.reserve, this]

/-- Claim C7: collecting any finite sequence of code points through the char
iterator path (`from_iter_chars`, which appends each one in order with
`put_char`, reserving in between) and freezing the result yields a chunk
whose bytes are the concatenation of the code points' own UTF-8
encodings, and whose decoded text is that code point sequence, across
all 1–4 byte encodings. -/
theorem from_iter_chars_freeze (cs : List Nat)
    (h : ∀ c ∈ cs, IsScalar c) :
    ∃ b, StrChunkMut.from_iter_chars cs = some b ∧
      b.freeze.bytes = utf8Encode cs ∧
      utf8Decode b.freeze.bytes = some cs := by
  rcases cs with _ | ⟨ch, rest⟩
  · exact ⟨StrChunkMut.new, rfl, by simp [StrChunkMut.new,
      StrChunkMut.freeze, utf8Encode], by
        simp [StrChunkMut.new, StrChunkMut.freeze, utf8Encode, utf8Decode]⟩
  · have hcap : 4 ≤ (StrChunkMut.with_capacity
        (rest.length + 5)).remaining_mut := by
      simp [StrChunkMut.with_capacity, StrChunkMut.remaining_mut]
    obtain ⟨b1, hb1, hbytes⟩ :=
      extend_chars_loop_spec rest (StrChunkMut.with_capacity
        (rest.length + 5)) ch hcap
    have hb : StrChunkMut.from_iter_chars (ch :: rest) = some b1 := by
      unfold StrChunkMut.from_iter_chars
      exact hb1
    have henc : b1.freeze.bytes = utf8Encode (ch :: rest) := by
      unfold StrChunkMut.freeze
      rw [hbytes]
      simp [StrChunkMut.with_capacity, utf8Encode]
    refine ⟨b1, hb, henc, ?_⟩
    rw [henc]
    exact utf8Decode_encode (ch :: rest) h

theorem from_iter_chars_freeze_witness :
    (∀ c ∈ [0x41, 0x417, 0x20AC, 0x10348], IsScalar c) ∧
    ∃ b, StrChunkMut.from_iter_chars [0x41, 0x417, 0x20AC, 0x10348] =
        some b ∧
      b.freeze.bytes = utf8Encode [0x41, 0x417, 0x20AC, 0x10348] ∧
      utf8Decode b.freeze.bytes = some [0x41, 0x417, 0x20AC, 0x10348] :=
  ⟨by decide, from_iter_chars_freeze [0x41, 0x417, 0x20AC, 0x10348]
    (by decide)⟩

/-- Claim C8: `put_char` faults (panics) when the remaining capacity cannot
hold the code point's UTF-8 encoding, and after reserving 4 bytes it
always succeeds, appending exactly that encoding. -/
theorem put_char_capacity (b : StrChunkMut) (c : Nat) :
    (b.remaining_mut < (encodeChar c).length → b.put_char c = none) ∧
    ∃ b1, (b.reserve 4).put_char c = some b1 ∧
      b1.bytes = b.bytes ++ encodeChar c := by
  constructor
  · intro h
    unfold StrChunkMut.put_char
    rw [if_neg (by omega)]
  · have h4 : 4 ≤ (b.reserve 4).remaining_mut := by
      simp [StrChunkMut.reserve, StrChunkMut.remaining_mut]
      omega
    refine ⟨⟨b.bytes ++ encodeChar c, (b.reserve 4).cap⟩, ?_, rfl⟩
    unfold StrChunkMut.put_char
    rw [if_pos (le_trans (encodeChar_length_le c) h4)]
    rfl

theorem put_char_capacity_witness :
    (StrChunkMut.mk [0x41] 2).remaining_mut <
        (encodeChar 0x417).length ∧
    (StrChunkMut.mk [0x41] 2).put_char 0x417 = none ∧
    ∃ b1, ((StrChunkMut.mk [0x41] 2).reserve 4).put_char 0x417 =
        some b1 ∧
      b1.bytes = [0x41] ++ encodeChar 0x417 :=
  ⟨by decide,
   (put_char_capacity (StrChunkMut.mk [0x41] 2) 0x417).1 (by decide),
   (put_char_capacity (StrChunkMut.mk [0x41] 2) 0x417).2⟩

end Strchunk
